import Mathlib

/-!
Verification of `scripts/embed_shaders.py`: a build-step tool that converts
compiled shader binaries into a generated C++ header of embedded byte arrays.

The Python source is shallowly embedded below:
* bytes are `Fin 256` (Python `bytes` elements are in `0..255`);
* the filesystem at scan time is the list of filenames returned by
  `input_path.glob("*.bin")`, in enumeration order;
* the filesystem at read time is a function `String → ReadOutcome`
  (`absent` models `Path.exists()` returning `False`, `unreadable` models
  `open`/`read` raising `OSError`, `content` a successful full read);
* Python exceptions are modelled by `Except EmbedError`;
* the generated header is the returned `String` (the write to the output
  file is the final, unconditional step of the script).
-/

/-- A byte, as found in a Python `bytes` object. -/
abbrev Byte := Fin 256

/-- Embedding of the Python f-string `f'0x{b:02x}'` for a byte `b`:
`0x` followed by exactly two lowercase hexadecimal digits.
`Nat.digitChar` yields `'0'`–`'9'`, `'a'`–`'f'` on inputs below 16,
matching Python's lowercase `%x` formatting. -/
def hexByte (b : Byte) : String :=
  "0x" ++ String.mk [Nat.digitChar (b.val / 16), Nat.digitChar (b.val % 16)]

/-- Embedding of Python `', '.join(items)`. -/
def joinSep : List String → String
  | [] => ""
  | [s] => s
  | s :: rest => s ++ ", " ++ joinSep rest

/-- Fuel-indexed embedding of the loop
`for i in range(0, len(data), 16)` in `bytes_to_cpp_array`:
each iteration takes the next chunk of at most 16 bytes, emits the indented
`', '`-joined hex literals, appends `","` exactly when more data follows
(`i + 16 < len(data)`), then a newline.  The fuel is only a structural
termination device; `data.length` iterations always suffice since each
round consumes 16 bytes of a nonempty list. -/
def hexBodyAux : Nat → List Byte → String
  | _, [] => ""
  | 0, _ :: _ => ""
  | fuel + 1, b :: bs =>
    let chunk := (b :: bs).take 16
    let rest := (b :: bs).drop 16
    "    " ++ joinSep (chunk.map hexByte)
      ++ (if rest = [] then "" else ",") ++ "\n"
      ++ hexBodyAux fuel rest

/-- The hex-literal body built by the loop of `bytes_to_cpp_array`. -/
def hexBody (data : List Byte) : String :=
  hexBodyAux data.length data

/-- Embedding of `bytes_to_cpp_array(data, var_name)`: the full array
declaration (opening line, hex body, closing brace) followed by the size
constant defined via `sizeof` of the emitted array. -/
def bytes_to_cpp_array (data : List Byte) (var_name : String) : String :=
  "static const uint8_t " ++ var_name ++ "[] = \x7b\n"
    ++ hexBody data
    ++ "\x7d;\n"
    ++ "static const size_t " ++ var_name ++ "_size = sizeof(" ++ var_name ++ ");\n\n"

/-- Outcome of touching a file at read time (between selection and
embedding): the file may be gone (`Path.exists()` false), present but
unreadable (`open`/`read` raises), or readable with some content. -/
inductive ReadOutcome where
  | absent : ReadOutcome
  | unreadable : ReadOutcome
  | content : List Byte → ReadOutcome
deriving DecidableEq

/-- Python exceptions the script can raise:
`indexError` models the bare `IndexError` from `name.split('_')[1]` on a
filename with fewer than two underscore-separated tokens (it carries no
filename); `ioError` models an `OSError` raised while reading a matched
shader file, carrying the path being read. -/
inductive EmbedError where
  | indexError : EmbedError
  | ioError : String → EmbedError
deriving DecidableEq

/-- The `shader_files` dict: at most one candidate per slot, slots in the
fixed insertion order `vs_lines`, `fs_lines`. -/
structure Selection where
  vs : Option String
  fs : Option String
deriving DecidableEq

/-- Embedding of Python `str.split('_')`: split on every underscore,
keeping empty tokens, always returning at least one token. -/
def splitUnderscore : List Char → List (List Char)
  | [] => [[]]
  | '_' :: rest => [] :: splitUnderscore rest
  | c :: rest =>
    match splitUnderscore rest with
    | l :: ls => (c :: l) :: ls
    | [] => [[c]]

/-- Embedding of `Path(filename).stem` for a file matched by
`glob("*.bin")`: the name with the final `.bin` suffix (4 characters)
removed. -/
def stemOf (f : String) : List Char := f.data.take (f.data.length - 4)

/-- The derived slot key `name.split('_')[0] + '_' + name.split('_')[1]`.
`split('_')` always returns at least one token, so the derivation fails
(Python: `IndexError` on the `[1]` access) exactly when the stem has no
underscore. -/
def keyOf (f : String) : Option String :=
  match splitUnderscore (stemOf f) with
  | t0 :: t1 :: _ => some (String.mk (t0 ++ '_' :: t1))
  | _ => none

/-- Embedding of the selection loop
`for shader_file in input_path.glob("*.bin"): ...` over the enumerated
filenames, threading the `shader_files` dict.  A later match for a slot
overwrites an earlier one; a malformed filename raises `IndexError`. -/
def selectCandidates : List String → Selection → Except EmbedError Selection
  | [], sel => .ok sel
  | f :: rest, sel =>
    match keyOf f with
    | some key =>
      selectCandidates rest
        (if key = "vs_lines" then ⟨some f, sel.fs⟩
         else if key = "fs_lines" then ⟨sel.vs, some f⟩
         else sel)
    | none => .error .indexError

/-- The selection phase of `embed_shaders`, started from the dict
`{'vs_lines': None, 'fs_lines': None}`. -/
def select_candidates (files : List String) : Except EmbedError Selection :=
  selectCandidates files ⟨none, none⟩

/-- The placeholder block emitted for a slot with no usable file:
comment, one-byte `{0x00}` array, literal size constant `1`. -/
def placeholderBlock (slot : String) : String :=
  "// " ++ slot ++ " shader (placeholder - not compiled)\n"
    ++ "static const uint8_t embedded_" ++ slot ++ "[] = \x7b0x00\x7d;\n"
    ++ "static const size_t embedded_" ++ slot ++ "_size = 1;\n\n"

/-- The fixed preamble of the generated header. -/
def headerPreamble : String :=
  "#pragma once\n\n// Auto-generated embedded shaders for high-performance GPU rendering\n// Generated from compiled bgfx shader binaries\n\n#include <cstdint>\n#include <cstddef>\n\nnamespace oscil::shaders \x7b\n\n"

/-- The fixed closing line of the generated header. -/
def closingStr : String :=
  "\x7d // namespace oscil::shaders\n"

/-- Embedding of the per-slot branch of the embedding loop:
`if shader_path and shader_path.exists():` read and serialize, else emit
the placeholder.  Note the `exists()` re-check at read time: a matched
path that no longer exists falls into the placeholder branch; only a path
that exists but fails to read raises `OSError`. -/
def emitSlot (slot : String) (cand : Option String) (rfs : String → ReadOutcome) :
    Except EmbedError String :=
  match cand with
  | some path =>
    match rfs path with
    | .content data =>
      .ok ("// " ++ slot ++ " shader (" ++ toString data.length ++ " bytes)\n"
        ++ bytes_to_cpp_array data ("embedded_" ++ slot))
    | .unreadable => .error (.ioError path)
    | .absent => .ok (placeholderBlock slot)
  | none => .ok (placeholderBlock slot)

/-- Embedding of `embed_shaders(input_dir, output_header)`:
select candidates from the enumerated `*.bin` filenames, emit the two slots
in the fixed dict order, wrap in preamble and closing.  The returned string
is the content written to the output file; an error means the exception
propagated and no output file was written. -/
def embed_shaders (files : List String) (rfs : String → ReadOutcome) :
    Except EmbedError String := do
  let sel ← select_candidates files
  let vsBlock ← emitSlot "vs_lines" sel.vs rfs
  let fsBlock ← emitSlot "fs_lines" sel.fs rfs
  return headerPreamble ++ vsBlock ++ fsBlock ++ closingStr

/-- The usage message printed on wrong argument count. -/
def usageMsg : String :=
  "Usage: python3 embed_shaders.py <input_dir> <output_header>"

/-- Embedding of the `__main__` guard: with exactly two arguments after the
program name the script proceeds to `embed_shaders`; otherwise it prints
the usage message and exits with code 1 before any output is written. -/
def mainArgs (argv : List String) : Except (Nat × String) (String × String) :=
  match argv with
  | [_, a, b] => .ok (a, b)
  | _ => .error (1, usageMsg)

/-!
Analyzers: independent functions that parse the emitted text back, used to
state properties of the generated header as the spec does ("the hex values
parsed back out of the generated array", lines, trailing commas).
-/

/-- The value of a lowercase hexadecimal digit character, if it is one. -/
def hexDigitVal (c : Char) : Option Nat :=
  if c = '0' then some 0
  else if c = '1' then some 1
  else if c = '2' then some 2
  else if c = '3' then some 3
  else if c = '4' then some 4
  else if c = '5' then some 5
  else if c = '6' then some 6
  else if c = '7' then some 7
  else if c = '8' then some 8
  else if c = '9' then some 9
  else if c = 'a' then some 10
  else if c = 'b' then some 11
  else if c = 'c' then some 12
  else if c = 'd' then some 13
  else if c = 'e' then some 14
  else if c = 'f' then some 15
  else none

/-- Scan a character stream for `0xHH` tokens (two lowercase hex digits)
and decode each to its byte value, in order. -/
def extractHex : List Char → List Nat
  | '0' :: 'x' :: d1 :: d2 :: rest =>
    match hexDigitVal d1, hexDigitVal d2 with
    | some a, some b => (16 * a + b) :: extractHex rest
    | _, _ => extractHex rest
  | _ :: rest => extractHex rest
  | [] => []

/-- Count the `0xHH` tokens that are NOT immediately followed by a comma;
"only the final entry overall lacks a trailing comma" says this count is 1. -/
def tokensNoComma : List Char → Nat
  | '0' :: 'x' :: d1 :: d2 :: rest =>
    match hexDigitVal d1, hexDigitVal d2 with
    | some _, some _ =>
      (match rest with | ',' :: _ => 0 | _ => 1) + tokensNoComma rest
    | _, _ => tokensNoComma rest
  | _ :: rest => tokensNoComma rest
  | [] => 0

/-- Split a character stream at newline characters (the final, trailing
element corresponds to the text after the last newline). -/
def splitLines : List Char → List (List Char)
  | [] => [[]]
  | c :: rest =>
    if c = '\n' then [] :: splitLines rest
    else
      match splitLines rest with
      | l :: ls => (c :: l) :: ls
      | [] => [[c]]

/-- C++ `sizeof` of a `uint8_t` array of `n` elements: `n * sizeof(uint8_t)`
with `sizeof(uint8_t) = 1`.  The emitted size constant is defined as
`sizeof(<array>)`, so its value is this applied to the element count of the
emitted array. -/
def sizeofUint8Array (n : Nat) : Nat := n * 1

/-- The last file in enumeration order whose derived slot key is `key`
(later files win), or `none` when no file matches. -/
def findLastMatch (key : String) : List String → Option String
  | [] => none
  | f :: rest =>
    match findLastMatch key rest with
    | some g => some g
    | none => if keyOf f = some key then some f else none

/-!
Proof-side decompositions of the hex body into its lines, used to settle
the per-line formatting claims.
-/

/-- The chunking performed by the `range(0, len(data), 16)` loop, with the
same fuel discipline as `hexBodyAux`. -/
def lineChunks : Nat → List Byte → List (List Byte)
  | _, [] => []
  | 0, _ :: _ => []
  | fuel + 1, b :: bs => (b :: bs).take 16 :: lineChunks fuel ((b :: bs).drop 16)

/-- One emitted line (without its newline): four spaces of indentation, the
`', '`-joined two-digit hex literals of the chunk, and a trailing comma
exactly when another line follows. -/
def lineOf (chunk : List Byte) (comma : Bool) : List Char :=
  ("    " ++ joinSep (chunk.map hexByte)).data ++ (if comma then [','] else [])

/-- The lines of the body for a given chunk decomposition: every line but
the last carries the line-continuation comma. -/
def lineList : List (List Byte) → List (List Char)
  | [] => []
  | [c] => [lineOf c false]
  | c :: cs => lineOf c true :: lineList cs

/-! Basic facts used throughout the development. -/

theorem string_data_append (s t : String) : (s ++ t).data = s.data ++ t.data := rfl

theorem hexDigitVal_digitChar {n : Nat} (h : n < 16) :
    hexDigitVal (Nat.digitChar n) = some n := by
  interval_cases n <;> rfl

theorem extractHex_skip (c : Char) (h : c ≠ '0') (l : List Char) :
    extractHex (c :: l) = extractHex l := by
  rcases l with _ | ⟨a, _ | ⟨b, _ | ⟨d, rest⟩⟩⟩ <;> simp [extractHex, h]

theorem extractHex_append_noZero {a : List Char} (h : '0' ∉ a) (r : List Char) :
    extractHex (a ++ r) = extractHex r := by
  induction a with
  | nil => rfl
  | cons c a ih =>
    have hc : c ≠ '0' := fun hc => h (hc ▸ List.mem_cons_self c a)
    rw [List.cons_append, extractHex_skip c hc,
      ih (fun hm => h (List.mem_cons_of_mem c hm))]

theorem extractHex_token {d1 d2 : Char} {a b : Nat} (h1 : hexDigitVal d1 = some a)
    (h2 : hexDigitVal d2 = some b) (r : List Char) :
    extractHex ('0' :: 'x' :: d1 :: d2 :: r) = (16 * a + b) :: extractHex r := by
  simp [extractHex, h1, h2]

theorem hexByte_data (bb : Byte) :
    (hexByte bb).data =
      ['0', 'x', Nat.digitChar (bb.val / 16), Nat.digitChar (bb.val % 16)] := rfl

theorem extractHex_hexByte (bb : Byte) (r : List Char) :
    extractHex ((hexByte bb).data ++ r) = bb.val :: extractHex r := by
  have hd : bb.val / 16 < 16 := by
    have := bb.isLt
    omega
  have hm : bb.val % 16 < 16 := Nat.mod_lt _ (by norm_num)
  rw [hexByte_data]
  show extractHex ('0' :: 'x' :: _ :: _ :: r) = _
  rw [extractHex_token (hexDigitVal_digitChar hd) (hexDigitVal_digitChar hm)]
  congr 1
  omega

theorem extractHex_joinSep (chunk : List Byte) (r : List Char) :
    extractHex ((joinSep (chunk.map hexByte)).data ++ r) =
      chunk.map Fin.val ++ extractHex r := by
  induction chunk with
  | nil => rfl
  | cons bb rest ih =>
    cases rest with
    | nil =>
      show extractHex ((joinSep [hexByte bb]).data ++ r) = _
      rw [show joinSep [hexByte bb] = hexByte bb from rfl, extractHex_hexByte]
      rfl
    | cons b2 rest2 =>
      have hshape : (joinSep ((bb :: b2 :: rest2).map hexByte)).data
          = (hexByte bb).data
            ++ (',' :: ' ' :: (joinSep ((b2 :: rest2).map hexByte)).data) := by
        show (hexByte bb ++ ", " ++ joinSep ((b2 :: rest2).map hexByte)).data = _
        simp [string_data_append]
      rw [hshape, List.append_assoc, extractHex_hexByte]
      show _ :: extractHex (',' :: ' ' :: _) = _
      rw [extractHex_skip ',' (by decide), extractHex_skip ' ' (by decide)]
      simp only [List.append_eq]
      rw [ih]
      rfl

theorem extractHex_nil_of_noZero {a : List Char} (h : '0' ∉ a) : extractHex a = [] := by
  have := extractHex_append_noZero h []
  simpa using this

theorem extractHex_hexBodyAux :
    ∀ (fuel : Nat) (data : List Byte) (r : List Char), data.length ≤ fuel →
      extractHex ((hexBodyAux fuel data).data ++ r) = data.map Fin.val ++ extractHex r := by
  intro fuel
  induction fuel with
  | zero =>
    intro data r h
    cases data with
    | nil => rfl
    | cons b bs => simp at h
  | succ fuel ih =>
    intro data r h
    cases data with
    | nil => rfl
    | cons b bs =>
      have hunf : hexBodyAux (fuel + 1) (b :: bs)
          = "    " ++ joinSep (((b :: bs).take 16).map hexByte)
            ++ (if (b :: bs).drop 16 = [] then "" else ",") ++ "\n"
            ++ hexBodyAux fuel ((b :: bs).drop 16) := rfl
      rw [hunf]
      simp only [string_data_append, List.append_assoc]
      rw [extractHex_append_noZero (show ('0' : Char) ∉ "    ".data by decide),
        extractHex_joinSep]
      by_cases hre : (b :: bs).drop 16 = []
      · have htake : (b :: bs).take 16 = b :: bs := by
          apply List.take_of_length_le
          have := congrArg List.length hre
          simp only [List.length_drop, List.length_nil] at this
          omega
        rw [if_pos hre, hre, htake]
        have h2 : hexBodyAux fuel ([] : List Byte) = "" := by cases fuel <;> rfl
        rw [h2]
        have h3 : (("" : String)).data = ([] : List Char) := rfl
        rw [h3]
        simp only [List.nil_append, List.append_nil]
        have h4 : ("\n".data ++ r) = '\n' :: r := rfl
        rw [h4, extractHex_skip '\n' (by decide)]
      · rw [if_neg hre]
        have h5 : (",".data ++ ("\n".data ++ ((hexBodyAux fuel ((b :: bs).drop 16)).data ++ r)))
            = ',' :: '\n' :: ((hexBodyAux fuel ((b :: bs).drop 16)).data ++ r) := rfl
        rw [h5, extractHex_skip ',' (by decide), extractHex_skip '\n' (by decide)]
        rw [ih ((b :: bs).drop 16) r (by simp only [List.length_drop] at *; omega)]
        rw [← List.append_assoc, ← List.map_append, List.take_append_drop]

theorem extractHex_bytes_to_cpp_array (data : List Byte) (name : String)
    (h : '0' ∉ name.data) :
    extractHex (bytes_to_cpp_array data name).data = data.map Fin.val := by
  unfold bytes_to_cpp_array
  simp only [string_data_append, List.append_assoc]
  rw [extractHex_append_noZero (show ('0' : Char) ∉ "static const uint8_t ".data by decide),
    extractHex_append_noZero h,
    extractHex_append_noZero (show ('0' : Char) ∉ "[] = \x7b\n".data by decide)]
  unfold hexBody
  rw [extractHex_hexBodyAux data.length data _ le_rfl,
    extractHex_append_noZero (show ('0' : Char) ∉ "\x7d;\n".data by decide),
    extractHex_append_noZero (show ('0' : Char) ∉ "static const size_t ".data by decide),
    extractHex_append_noZero h,
    extractHex_append_noZero (show ('0' : Char) ∉ "_size = sizeof(".data by decide),
    extractHex_append_noZero h,
    extractHex_nil_of_noZero (show ('0' : Char) ∉ ");\n\n".data by decide)]
  simp

/-!
Claim theorems.
-/

/-- **C1**: for every byte sequence `data` and identifier `name`, the array
declaration emitted by `bytes_to_cpp_array` contains exactly `data.length`
hex-literal elements, and the size constant — `sizeof` of the emitted
`uint8_t` array, i.e. element count times `sizeof(uint8_t) = 1` — evaluates
to `data.length`.  The hypothesis says the identifier contains no `'0'`
character, so that the identifier cannot be mistaken for a hex literal by
the parse-back (every identifier the script uses is `embedded_vs_lines` or
`embedded_fs_lines`). -/
theorem serialize_bytes_element_count (data : List Byte) (name : String)
    (h : '0' ∉ name.data) :
    (extractHex (bytes_to_cpp_array data name).data).length = data.length ∧
    sizeofUint8Array (extractHex (bytes_to_cpp_array data name).data).length
      = data.length := by
  have hx := extractHex_bytes_to_cpp_array data name h
  refine ⟨?_, ?_⟩
  · rw [hx, List.length_map]
  · rw [hx, List.length_map]
    simp [sizeofUint8Array]

/-- Witness for C1 at a concrete three-byte input. -/
theorem serialize_bytes_element_count_witness :
    ('0' : Char) ∉ ("embedded_vs_lines" : String).data ∧
    ((extractHex (bytes_to_cpp_array [0x01, 0x02, 0xab] "embedded_vs_lines").data).length
        = ([0x01, 0x02, 0xab] : List Byte).length ∧
      sizeofUint8Array
        (extractHex (bytes_to_cpp_array [0x01, 0x02, 0xab] "embedded_vs_lines").data).length
        = ([0x01, 0x02, 0xab] : List Byte).length) :=
  ⟨by decide, serialize_bytes_element_count [0x01, 0x02, 0xab] "embedded_vs_lines" (by decide)⟩

/-- **C8**: round-trip — decoding each `0xHH` token of the emitted array
declaration back to a byte and concatenating them in order reconstructs the
original bytes exactly. -/
theorem serialize_bytes_roundtrip (data : List Byte) (name : String)
    (h : '0' ∉ name.data) :
    extractHex (bytes_to_cpp_array data name).data = data.map Fin.val :=
  extractHex_bytes_to_cpp_array data name h

/-- Witness for C8 at a concrete input spanning two emitted lines. -/
theorem serialize_bytes_roundtrip_witness :
    ('0' : Char) ∉ ("embedded_fs_lines" : String).data ∧
    extractHex (bytes_to_cpp_array
        [0, 1, 2, 3, 4, 5, 6, 7, 8, 9, 10, 11, 12, 13, 14, 15, 255, 128]
        "embedded_fs_lines").data
      = List.map Fin.val
        ([0, 1, 2, 3, 4, 5, 6, 7, 8, 9, 10, 11, 12, 13, 14, 15, 255, 128] : List Byte) :=
  ⟨by decide,
    serialize_bytes_roundtrip
      [0, 1, 2, 3, 4, 5, 6, 7, 8, 9, 10, 11, 12, 13, 14, 15, 255, 128]
      "embedded_fs_lines" (by decide)⟩

/-- **C5**: for empty input data the emitted declaration has zero
hex-literal elements and no comma character anywhere (so no dangling
comma).  The hypotheses exclude `'0'` and `','` from the identifier itself
(both hold for the identifiers the script uses). -/
theorem serialize_bytes_empty (name : String)
    (h0 : '0' ∉ name.data) (hc : ',' ∉ name.data) :
    extractHex (bytes_to_cpp_array [] name).data = [] ∧
    ',' ∉ (bytes_to_cpp_array [] name).data := by
  refine ⟨?_, ?_⟩
  · rw [extractHex_bytes_to_cpp_array [] name h0]
    rfl
  · intro hmem
    have hx : (bytes_to_cpp_array [] name).data
        = "static const uint8_t ".data ++ (name.data ++ ("[] = \x7b\n".data
          ++ ((hexBody []).data ++ ("\x7d;\n".data ++ ("static const size_t ".data
          ++ (name.data ++ ("_size = sizeof(".data
          ++ (name.data ++ ");\n\n".data)))))))) := by
      simp only [bytes_to_cpp_array, string_data_append, List.append_assoc]
    rw [hx] at hmem
    have hbody : (hexBody ([] : List Byte)).data = [] := rfl
    rw [hbody] at hmem
    simp only [List.mem_append, List.nil_append] at hmem
    rcases hmem with h | h | h | h | h | h | h | h
    · exact absurd h (by decide)
    · exact hc h
    · exact absurd h (by decide)
    · exact absurd h (by decide)
    · exact absurd h (by decide)
    · exact hc h
    · exact absurd h (by decide)
    · rcases h with h | h
      · exact hc h
      · exact absurd h (by decide)

/-- Witness for C5 at the identifier the script actually uses. -/
theorem serialize_bytes_empty_witness :
    (('0' : Char) ∉ ("embedded_vs_lines" : String).data ∧
      (',' : Char) ∉ ("embedded_vs_lines" : String).data) ∧
    (extractHex (bytes_to_cpp_array [] "embedded_vs_lines").data = [] ∧
      ',' ∉ (bytes_to_cpp_array [] "embedded_vs_lines").data) :=
  ⟨⟨by decide, by decide⟩,
    serialize_bytes_empty "embedded_vs_lines" (by decide) (by decide)⟩

/-- **C9**: any invocation whose argument count (program name included) is
not exactly three stops at the `__main__` guard with exit code 1 and the
usage message on standard output; `embed_shaders` is never reached, so no
output file is written. -/
theorem wrong_arg_count_usage (argv : List String) (h : argv.length ≠ 3) :
    mainArgs argv = .error (1, usageMsg) := by
  rcases argv with _ | ⟨a, _ | ⟨b, _ | ⟨c, _ | ⟨d, rest⟩⟩⟩⟩
  · rfl
  · rfl
  · rfl
  · exact absurd rfl h
  · rfl

/-- Witness for C9 at a zero-argument invocation. -/
theorem wrong_arg_count_usage_witness :
    (["embed_shaders.py"] : List String).length ≠ 3 ∧
    mainArgs ["embed_shaders.py"] = .error (1, usageMsg) :=
  ⟨by decide, wrong_arg_count_usage ["embed_shaders.py"] (by decide)⟩

/-- **C2** (behavior the code actually has at the claim's failing input):
on a directory containing only `shader.bin` — a name with fewer than two
underscore-separated tokens — the run aborts with the bare `IndexError`
from `name.split('_')[1]`, which carries no filename, rather than with an
`InputFormatError` surfaced with the offending filename.  The error occurs
during selection, before the output file is opened, so no output is
written. -/
theorem malformed_filename_index_error :
    embed_shaders ["shader.bin"] (fun _ => ReadOutcome.absent)
      = .error .indexError := rfl

/-- **C3 counterexample**: a candidate matched during selection but deleted
before the read (`Path.exists()` false at embed time) does NOT make the run
propagate an `IOError`: the run succeeds and silently substitutes the
placeholder for that slot, contradicting the claim. -/
theorem deleted_candidate_counterexample :
    embed_shaders ["vs_lines_glsl.bin"] (fun _ => ReadOutcome.absent)
      = .ok (headerPreamble ++ placeholderBlock "vs_lines"
          ++ placeholderBlock "fs_lines" ++ closingStr) := rfl

/-- Evaluation of the per-slot branch when the slot has no candidate. -/
theorem emitSlot_none (slot : String) (rfs : String → ReadOutcome) :
    emitSlot slot none rfs = .ok (placeholderBlock slot) := rfl

/-- Evaluation of the per-slot branch when the matched file no longer
exists at read time (`Path.exists()` false): the placeholder is emitted. -/
theorem emitSlot_absent (slot path : String) (rfs : String → ReadOutcome)
    (h : rfs path = .absent) :
    emitSlot slot (some path) rfs = .ok (placeholderBlock slot) := by
  simp only [emitSlot]
  rw [h]

/-- Evaluation of the per-slot branch when the matched file exists but its
read fails: the `OSError` for that path is raised. -/
theorem emitSlot_unreadable (slot path : String) (rfs : String → ReadOutcome)
    (h : rfs path = .unreadable) :
    emitSlot slot (some path) rfs = .error (.ioError path) := by
  simp only [emitSlot]
  rw [h]

/-- Evaluation of the per-slot branch on a successful read. -/
theorem emitSlot_content (slot path : String) (rfs : String → ReadOutcome)
    (d : List Byte) (h : rfs path = .content d) :
    emitSlot slot (some path) rfs
      = .ok ("// " ++ slot ++ " shader (" ++ toString d.length ++ " bytes)\n"
          ++ bytes_to_cpp_array d ("embedded_" ++ slot)) := by
  simp only [emitSlot]
  rw [h]

/-- Unfolding of `embed_shaders` once the selection is known. -/
theorem embed_shaders_select (files : List String) (rfs : String → ReadOutcome)
    (sel : Selection) (hsel : select_candidates files = .ok sel) :
    embed_shaders files rfs
      = ((emitSlot "vs_lines" sel.vs rfs) >>= fun vsBlock =>
          (fun a => headerPreamble ++ vsBlock ++ a ++ closingStr)
            <$> emitSlot "fs_lines" sel.fs rfs) := by
  unfold embed_shaders
  rw [hsel]
  rfl

/-- **C3 (amended)**: for any run whose selection succeeded, (1) if any
matched candidate file still exists but its read fails, `embed_shaders`
propagates an `IOError` for a matched unreadable path to the caller (the
`vs_lines` slot is read first, so its error is the one raised when both
reads would fail); (2) and (3): if a matched candidate no longer exists at
read time (deleted between scan and read), that slot silently receives the
one-byte placeholder instead of raising, and whenever the other slot emits
without error the whole run succeeds with the placeholder embedded. -/
theorem unreadable_candidate_amended (files : List String)
    (rfs : String → ReadOutcome) (sel : Selection)
    (hsel : select_candidates files = .ok sel) :
    ((∃ path, (sel.vs = some path ∨ sel.fs = some path) ∧ rfs path = .unreadable) →
      ∃ epath, (sel.vs = some epath ∨ sel.fs = some epath) ∧
        rfs epath = .unreadable ∧
        embed_shaders files rfs = .error (.ioError epath)) ∧
    (∀ path, sel.vs = some path → rfs path = .absent →
      emitSlot "vs_lines" sel.vs rfs = .ok (placeholderBlock "vs_lines") ∧
      ∀ fsb, emitSlot "fs_lines" sel.fs rfs = .ok fsb →
        embed_shaders files rfs
          = .ok (headerPreamble ++ placeholderBlock "vs_lines" ++ fsb ++ closingStr)) ∧
    (∀ path, sel.fs = some path → rfs path = .absent →
      emitSlot "fs_lines" sel.fs rfs = .ok (placeholderBlock "fs_lines") ∧
      ∀ vsb, emitSlot "vs_lines" sel.vs rfs = .ok vsb →
        embed_shaders files rfs
          = .ok (headerPreamble ++ vsb ++ placeholderBlock "fs_lines" ++ closingStr)) := by
  refine ⟨?_, ?_, ?_⟩
  · rintro ⟨path, hmem, hun⟩
    by_cases hvux : ∃ vp, sel.vs = some vp ∧ rfs vp = .unreadable
    · obtain ⟨vp, hvp, hvun⟩ := hvux
      refine ⟨vp, Or.inl hvp, hvun, ?_⟩
      rw [embed_shaders_select files rfs sel hsel, hvp,
        emitSlot_unreadable _ _ _ hvun]
      rfl
    · have hfs : sel.fs = some path := by
        rcases hmem with h | h
        · exact absurd ⟨path, h, hun⟩ hvux
        · exact h
      obtain ⟨vsb, hvsb⟩ : ∃ vsb, emitSlot "vs_lines" sel.vs rfs = .ok vsb := by
        cases hsv : sel.vs with
        | none => exact ⟨placeholderBlock "vs_lines", rfl⟩
        | some vp =>
          cases hr : rfs vp with
          | absent => exact ⟨placeholderBlock "vs_lines", emitSlot_absent _ _ _ hr⟩
          | unreadable => exact absurd ⟨vp, hsv, hr⟩ hvux
          | content d => exact ⟨_, emitSlot_content _ _ _ _ hr⟩
      refine ⟨path, Or.inr hfs, hun, ?_⟩
      rw [embed_shaders_select files rfs sel hsel, hvsb, hfs,
        emitSlot_unreadable _ _ _ hun]
      rfl
  · intro path hvp habs
    have hv : emitSlot "vs_lines" sel.vs rfs = .ok (placeholderBlock "vs_lines") := by
      rw [hvp]
      exact emitSlot_absent _ _ _ habs
    refine ⟨hv, ?_⟩
    intro fsb hfsb
    rw [embed_shaders_select files rfs sel hsel, hv, hfsb]
    rfl
  · intro path hfp habs
    have hf : emitSlot "fs_lines" sel.fs rfs = .ok (placeholderBlock "fs_lines") := by
      rw [hfp]
      exact emitSlot_absent _ _ _ habs
    refine ⟨hf, ?_⟩
    intro vsb hvsb
    rw [embed_shaders_select files rfs sel hsel, hvsb, hf]
    rfl

/-- Directory used by the C3 witness: both slots matched. -/
def witnessFiles : List String := ["vs_lines_glsl.bin", "fs_lines_glsl.bin"]

/-- Read-time filesystem of the C3 witness: the fragment shader exists but
is unreadable, the vertex shader was deleted between scan and read. -/
def witnessRfs : String → ReadOutcome :=
  fun f => if f = "fs_lines_glsl.bin" then ReadOutcome.unreadable else ReadOutcome.absent

/-- Selection computed on `witnessFiles`. -/
def witnessSel : Selection := ⟨some "vs_lines_glsl.bin", some "fs_lines_glsl.bin"⟩

/-- Witness for the amended C3: both slots matched, the fragment shader
unreadable and the vertex shader deleted at read time. -/
theorem unreadable_candidate_amended_witness :
    select_candidates witnessFiles = .ok witnessSel ∧
    (((∃ path, (witnessSel.vs = some path ∨ witnessSel.fs = some path) ∧
        witnessRfs path = .unreadable) →
      ∃ epath, (witnessSel.vs = some epath ∨ witnessSel.fs = some epath) ∧
        witnessRfs epath = .unreadable ∧
        embed_shaders witnessFiles witnessRfs = .error (.ioError epath)) ∧
    (∀ path, witnessSel.vs = some path → witnessRfs path = .absent →
      emitSlot "vs_lines" witnessSel.vs witnessRfs = .ok (placeholderBlock "vs_lines") ∧
      ∀ fsb, emitSlot "fs_lines" witnessSel.fs witnessRfs = .ok fsb →
        embed_shaders witnessFiles witnessRfs
          = .ok (headerPreamble ++ placeholderBlock "vs_lines" ++ fsb ++ closingStr)) ∧
    (∀ path, witnessSel.fs = some path → witnessRfs path = .absent →
      emitSlot "fs_lines" witnessSel.fs witnessRfs = .ok (placeholderBlock "fs_lines") ∧
      ∀ vsb, emitSlot "vs_lines" witnessSel.vs witnessRfs = .ok vsb →
        embed_shaders witnessFiles witnessRfs
          = .ok (headerPreamble ++ vsb ++ placeholderBlock "fs_lines" ++ closingStr))) :=
  ⟨rfl, unreadable_candidate_amended witnessFiles witnessRfs witnessSel rfl⟩

set_option maxRecDepth 16384 in
/-- **C7**: on an empty input directory the selection maps no file to
either slot, and the generated header still declares both slots in the
fixed order (`vs_lines` first, then `fs_lines`), each as a one-element
placeholder array `{0x00}` with a size constant equal to `1`.  The
read-time filesystem is arbitrary: no file is ever read. -/
theorem empty_dir_placeholders (rfs : String → ReadOutcome) :
    select_candidates [] = .ok ⟨none, none⟩ ∧
    embed_shaders [] rfs
      = .ok "#pragma once\n\n// Auto-generated embedded shaders for high-performance GPU rendering\n// Generated from compiled bgfx shader binaries\n\n#include <cstdint>\n#include <cstddef>\n\nnamespace oscil::shaders \x7b\n\n// vs_lines shader (placeholder - not compiled)\nstatic const uint8_t embedded_vs_lines[] = \x7b0x00\x7d;\nstatic const size_t embedded_vs_lines_size = 1;\n\n// fs_lines shader (placeholder - not compiled)\nstatic const uint8_t embedded_fs_lines[] = \x7b0x00\x7d;\nstatic const size_t embedded_fs_lines_size = 1;\n\n\x7d // namespace oscil::shaders\n" :=
  ⟨rfl, rfl⟩

/-- First-of-two option combinator used to state the generalized last-wins
property of the selection fold. -/
def orValue (a b : Option String) : Option String :=
  match a with
  | some x => some x
  | none => b


theorem selectCandidates_last (files : List String) :
    ∀ (sel0 sel : Selection), selectCandidates files sel0 = .ok sel →
      sel.vs = orValue (findLastMatch "vs_lines" files) sel0.vs ∧
      sel.fs = orValue (findLastMatch "fs_lines" files) sel0.fs := by
  induction files with
  | nil =>
    intro sel0 sel h
    have h' : sel0 = sel := by
      have h2 : Except.ok (ε := EmbedError) sel0 = .ok sel := h
      injection h2
    subst h'
    exact ⟨rfl, rfl⟩
  | cons f rest ih =>
    intro sel0 sel h
    rw [selectCandidates] at h
    cases hk : keyOf f with
    | none =>
      rw [hk] at h
      exact Except.noConfusion h
    | some key =>
      rw [hk] at h
      have h' : selectCandidates rest
          (if key = "vs_lines" then (⟨some f, sel0.fs⟩ : Selection)
           else if key = "fs_lines" then ⟨sel0.vs, some f⟩ else sel0) = .ok sel := h
      have hrec := ih _ sel h'
      refine ⟨?_, ?_⟩
      · rw [hrec.1, findLastMatch]
        cases hlm : findLastMatch "vs_lines" rest with
        | some g => rfl
        | none =>
          rw [hk]
          simp only [Option.some.injEq]
          by_cases h1 : key = "vs_lines"
          · rw [if_pos h1, if_pos h1]
            rfl
          · rw [if_neg h1, if_neg h1]
            by_cases h2 : key = "fs_lines"
            · rw [if_pos h2]
            · rw [if_neg h2]
      · rw [hrec.2, findLastMatch]
        cases hlm : findLastMatch "fs_lines" rest with
        | some g => rfl
        | none =>
          rw [hk]
          simp only [Option.some.injEq]
          by_cases h1 : key = "vs_lines"
          · rw [if_pos h1, if_neg (show ¬key = "fs_lines" by rw [h1]; decide)]
          · rw [if_neg h1]
            by_cases h2 : key = "fs_lines"
            · rw [if_pos h2, if_pos h2]
              rfl
            · rw [if_neg h2, if_neg h2]

/-- **C6**: when several candidate files derive the same slot key, the
selection maps that slot to exactly one file: the last matching file in
enumeration order (later matches silently overwrite earlier ones). -/
theorem last_candidate_wins (files : List String) (sel : Selection)
    (h : select_candidates files = .ok sel) :
    sel.vs = findLastMatch "vs_lines" files ∧
    sel.fs = findLastMatch "fs_lines" files := by
  have hg := selectCandidates_last files ⟨none, none⟩ sel h
  refine ⟨?_, ?_⟩
  · rw [hg.1]
    cases findLastMatch "vs_lines" files <;> rfl
  · rw [hg.2]
    cases findLastMatch "fs_lines" files <;> rfl

/-- Witness for C6: the directory of the spec's test scenario; `vs_lines`
gets exactly the later `vs_lines_spirv.bin`, `fs_lines` gets
`fs_lines_glsl.bin`. -/
theorem last_candidate_wins_witness :
    select_candidates ["vs_lines_glsl.bin", "fs_lines_glsl.bin", "vs_lines_spirv.bin"]
      = .ok ⟨some "vs_lines_spirv.bin", some "fs_lines_glsl.bin"⟩ ∧
    ((⟨some "vs_lines_spirv.bin", some "fs_lines_glsl.bin"⟩ : Selection).vs
        = findLastMatch "vs_lines"
            ["vs_lines_glsl.bin", "fs_lines_glsl.bin", "vs_lines_spirv.bin"] ∧
      (⟨some "vs_lines_spirv.bin", some "fs_lines_glsl.bin"⟩ : Selection).fs
        = findLastMatch "fs_lines"
            ["vs_lines_glsl.bin", "fs_lines_glsl.bin", "vs_lines_spirv.bin"]) :=
  ⟨rfl,
    last_candidate_wins ["vs_lines_glsl.bin", "fs_lines_glsl.bin", "vs_lines_spirv.bin"]
      ⟨some "vs_lines_spirv.bin", some "fs_lines_glsl.bin"⟩ rfl⟩

/-- **C10**: a well-formed filename whose derived slot key matches neither
slot is ignored: inserting it anywhere in the enumeration changes nothing —
no error arises from it and the generated output is byte-identical. -/
theorem irrelevant_file_ignored (pre post : List String) (f k : String)
    (rfs : String → ReadOutcome)
    (hk : keyOf f = some k) (hv : k ≠ "vs_lines") (hf : k ≠ "fs_lines") :
    embed_shaders (pre ++ f :: post) rfs = embed_shaders (pre ++ post) rfs := by
  have hstep : ∀ sel0 : Selection,
      selectCandidates (pre ++ f :: post) sel0 = selectCandidates (pre ++ post) sel0 := by
    induction pre with
    | nil =>
      intro sel0
      show selectCandidates (f :: post) sel0 = selectCandidates post sel0
      rw [selectCandidates, hk]
      show selectCandidates post
          (if k = "vs_lines" then (⟨some f, sel0.fs⟩ : Selection)
           else if k = "fs_lines" then ⟨sel0.vs, some f⟩ else sel0)
        = selectCandidates post sel0
      rw [if_neg hv, if_neg hf]
    | cons p pre ih =>
      intro sel0
      show selectCandidates (p :: (pre ++ f :: post)) sel0
          = selectCandidates (p :: (pre ++ post)) sel0
      rw [selectCandidates, selectCandidates]
      cases hkp : keyOf p with
      | none => rfl
      | some key =>
        exact ih (if key = "vs_lines" then (⟨some p, sel0.fs⟩ : Selection)
          else if key = "fs_lines" then ⟨sel0.vs, some p⟩ else sel0)
  unfold embed_shaders select_candidates
  rw [hstep ⟨none, none⟩]

/-- Witness for C10: adding `ab_cd_x.bin` (slot key `ab_cd`) to a directory
holding one vertex shader leaves the output identical. -/
theorem irrelevant_file_ignored_witness :
    (keyOf "ab_cd_x.bin" = some "ab_cd" ∧ "ab_cd" ≠ "vs_lines" ∧ "ab_cd" ≠ "fs_lines") ∧
    embed_shaders (["vs_lines_glsl.bin"] ++ "ab_cd_x.bin" :: [])
        (fun _ => ReadOutcome.content [1, 2, 3])
      = embed_shaders (["vs_lines_glsl.bin"] ++ [])
        (fun _ => ReadOutcome.content [1, 2, 3]) :=
  ⟨⟨rfl, by decide, by decide⟩,
    irrelevant_file_ignored ["vs_lines_glsl.bin"] [] "ab_cd_x.bin" "ab_cd"
      (fun _ => ReadOutcome.content [1, 2, 3]) rfl (by decide) (by decide)⟩

/-! Lemmas for the per-line formatting claim. -/

theorem tokensNoComma_skip (c : Char) (h : c ≠ '0') (l : List Char) :
    tokensNoComma (c :: l) = tokensNoComma l := by
  rcases l with _ | ⟨a, _ | ⟨b, _ | ⟨d, rest⟩⟩⟩ <;> simp [tokensNoComma, h]

theorem tokensNoComma_append_noZero {a : List Char} (h : '0' ∉ a) (r : List Char) :
    tokensNoComma (a ++ r) = tokensNoComma r := by
  induction a with
  | nil => rfl
  | cons c a ih =>
    have hc : c ≠ '0' := fun hc => h (hc ▸ List.mem_cons_self c a)
    rw [List.cons_append, tokensNoComma_skip c hc,
      ih (fun hm => h (List.mem_cons_of_mem c hm))]

theorem tokensNoComma_hexByte_comma (bb : Byte) (r : List Char) :
    tokensNoComma ((hexByte bb).data ++ ',' :: r) = tokensNoComma r := by
  have hd : bb.val / 16 < 16 := by
    have := bb.isLt
    omega
  have hm : bb.val % 16 < 16 := Nat.mod_lt _ (by norm_num)
  show tokensNoComma ('0' :: 'x' :: _ :: _ :: ',' :: r) = _
  simp [tokensNoComma, hexDigitVal_digitChar hd, hexDigitVal_digitChar hm,
    tokensNoComma_skip ',' (by decide)]

theorem tokensNoComma_hexByte_newline (bb : Byte) (r : List Char) :
    tokensNoComma ((hexByte bb).data ++ '\n' :: r) = 1 + tokensNoComma r := by
  have hd : bb.val / 16 < 16 := by
    have := bb.isLt
    omega
  have hm : bb.val % 16 < 16 := Nat.mod_lt _ (by norm_num)
  show tokensNoComma ('0' :: 'x' :: _ :: _ :: '\n' :: r) = _
  simp [tokensNoComma, hexDigitVal_digitChar hd, hexDigitVal_digitChar hm,
    tokensNoComma_skip '\n' (by decide)]

theorem tokensNoComma_joinSep_comma (chunk : List Byte) (r : List Char) :
    tokensNoComma ((joinSep (chunk.map hexByte)).data ++ ',' :: r) = tokensNoComma r := by
  induction chunk with
  | nil =>
    show tokensNoComma (("" : String).data ++ ',' :: r) = _
    rw [show (("" : String)).data = ([] : List Char) from rfl, List.nil_append,
      tokensNoComma_skip ',' (by decide)]
  | cons bb rest ih =>
    cases rest with
    | nil =>
      show tokensNoComma ((joinSep [hexByte bb]).data ++ ',' :: r) = _
      rw [show joinSep [hexByte bb] = hexByte bb from rfl, tokensNoComma_hexByte_comma]
    | cons b2 rest2 =>
      have hshape : (joinSep ((bb :: b2 :: rest2).map hexByte)).data
          = (hexByte bb).data
            ++ (',' :: ' ' :: (joinSep ((b2 :: rest2).map hexByte)).data) := by
        show (hexByte bb ++ ", " ++ joinSep ((b2 :: rest2).map hexByte)).data = _
        simp [string_data_append]
      rw [hshape, List.append_assoc]
      simp only [List.cons_append]
      rw [tokensNoComma_hexByte_comma, tokensNoComma_skip ' ' (by decide)]
      exact ih

theorem tokensNoComma_joinSep_newline (chunk : List Byte) (hne : chunk ≠ [])
    (r : List Char) :
    tokensNoComma ((joinSep (chunk.map hexByte)).data ++ '\n' :: r)
      = 1 + tokensNoComma r := by
  induction chunk with
  | nil => exact absurd rfl hne
  | cons bb rest ih =>
    cases rest with
    | nil =>
      show tokensNoComma ((joinSep [hexByte bb]).data ++ '\n' :: r) = _
      rw [show joinSep [hexByte bb] = hexByte bb from rfl, tokensNoComma_hexByte_newline]
    | cons b2 rest2 =>
      have hshape : (joinSep ((bb :: b2 :: rest2).map hexByte)).data
          = (hexByte bb).data
            ++ (',' :: ' ' :: (joinSep ((b2 :: rest2).map hexByte)).data) := by
        show (hexByte bb ++ ", " ++ joinSep ((b2 :: rest2).map hexByte)).data = _
        simp [string_data_append]
      rw [hshape, List.append_assoc]
      simp only [List.cons_append]
      rw [tokensNoComma_hexByte_comma, tokensNoComma_skip ' ' (by decide)]
      exact ih (by simp)

theorem tokensNoComma_hexBodyAux :
    ∀ (fuel : Nat) (data : List Byte), data ≠ [] → data.length ≤ fuel →
      tokensNoComma (hexBodyAux fuel data).data = 1 := by
  intro fuel
  induction fuel with
  | zero =>
    intro data hne h
    cases data with
    | nil => exact absurd rfl hne
    | cons b bs => simp at h
  | succ fuel ih =>
    intro data hne h
    cases data with
    | nil => exact absurd rfl hne
    | cons b bs =>
      have hunf : hexBodyAux (fuel + 1) (b :: bs)
          = "    " ++ joinSep (((b :: bs).take 16).map hexByte)
            ++ (if (b :: bs).drop 16 = [] then "" else ",") ++ "\n"
            ++ hexBodyAux fuel ((b :: bs).drop 16) := rfl
      rw [hunf]
      simp only [string_data_append, List.append_assoc]
      rw [tokensNoComma_append_noZero (show ('0' : Char) ∉ "    ".data by decide)]
      by_cases hre : (b :: bs).drop 16 = []
      · rw [if_pos hre, hre]
        have h2 : hexBodyAux fuel ([] : List Byte) = "" := by cases fuel <;> rfl
        rw [h2]
        have h3 : ((("" : String)).data ++ ("\n".data ++ (("" : String)).data))
            = '\n' :: ([] : List Char) := rfl
        rw [h3, tokensNoComma_joinSep_newline _ (by simp)]
        rfl
      · rw [if_neg hre]
        have h4 : (",".data ++ ("\n".data ++ (hexBodyAux fuel ((b :: bs).drop 16)).data))
            = ',' :: '\n' :: (hexBodyAux fuel ((b :: bs).drop 16)).data := rfl
        rw [h4, tokensNoComma_joinSep_comma, tokensNoComma_skip '\n' (by decide)]
        exact ih _ hre (by simp only [List.length_drop] at *; omega)

theorem digitChar_ne_newline {n : Nat} (h : n < 16) : Nat.digitChar n ≠ '\n' := by
  interval_cases n <;> decide

theorem newline_not_mem_hexByte (bb : Byte) : '\n' ∉ (hexByte bb).data := by
  have hd : bb.val / 16 < 16 := by
    have := bb.isLt
    omega
  have hm : bb.val % 16 < 16 := Nat.mod_lt _ (by norm_num)
  rw [hexByte_data]
  intro hmem
  simp only [List.mem_cons] at hmem
  rcases hmem with h | h | h | h | h
  · exact absurd h (by decide)
  · exact absurd h (by decide)
  · exact digitChar_ne_newline hd h.symm
  · exact digitChar_ne_newline hm h.symm
  · exact List.not_mem_nil _ h

theorem newline_not_mem_joinSep (chunk : List Byte) :
    '\n' ∉ (joinSep (chunk.map hexByte)).data := by
  induction chunk with
  | nil => exact fun hmem => List.not_mem_nil '\n' hmem
  | cons bb rest ih =>
    cases rest with
    | nil =>
      show '\n' ∉ (joinSep [hexByte bb]).data
      rw [show joinSep [hexByte bb] = hexByte bb from rfl]
      exact newline_not_mem_hexByte bb
    | cons b2 rest2 =>
      have hshape : (joinSep ((bb :: b2 :: rest2).map hexByte)).data
          = (hexByte bb).data
            ++ (',' :: ' ' :: (joinSep ((b2 :: rest2).map hexByte)).data) := by
        show (hexByte bb ++ ", " ++ joinSep ((b2 :: rest2).map hexByte)).data = _
        simp [string_data_append]
      rw [hshape]
      intro hmem
      rcases List.mem_append.mp hmem with h | h
      · exact newline_not_mem_hexByte bb h
      · simp only [List.mem_cons] at h
        rcases h with h | h | h
        · exact absurd h (by decide)
        · exact absurd h (by decide)
        · exact ih h

theorem newline_not_mem_lineOf (chunk : List Byte) (flag : Bool) :
    '\n' ∉ lineOf chunk flag := by
  unfold lineOf
  intro hmem
  rcases List.mem_append.mp hmem with h | h
  · rw [string_data_append] at h
    rcases List.mem_append.mp h with h2 | h2
    · exact absurd h2 (by decide)
    · exact newline_not_mem_joinSep chunk h2
  · cases flag
    · exact List.not_mem_nil _ h
    · exact absurd h (by decide)

theorem splitLines_cons_of_ne {c : Char} (h : c ≠ '\n') (l : List Char) :
    splitLines (c :: l)
      = match splitLines l with
        | a :: ls => (c :: a) :: ls
        | [] => [[c]] := by
  simp [splitLines, h]

theorem splitLines_append_newline (a r : List Char) (h : '\n' ∉ a) :
    splitLines (a ++ '\n' :: r) = a :: splitLines r := by
  induction a with
  | nil =>
    show splitLines ('\n' :: r) = [] :: splitLines r
    simp [splitLines]
  | cons c a ih =>
    have hc : c ≠ '\n' := fun hc => h (hc ▸ List.mem_cons_self c a)
    have ih2 := ih (fun hm => h (List.mem_cons_of_mem c hm))
    show splitLines (c :: (a ++ '\n' :: r)) = (c :: a) :: splitLines r
    rw [splitLines_cons_of_ne hc, ih2]

theorem lineChunks_nil (fuel : Nat) : lineChunks fuel [] = [] := by
  cases fuel <;> rfl

theorem lineChunks_ne_nil {fuel : Nat} {data : List Byte} (hne : data ≠ [])
    (h : data.length ≤ fuel) : lineChunks fuel data ≠ [] := by
  cases data with
  | nil => exact absurd rfl hne
  | cons b bs =>
    cases fuel with
    | zero => simp at h
    | succ fuel =>
      show (b :: bs).take 16 :: lineChunks fuel ((b :: bs).drop 16) ≠ []
      exact fun habs => List.noConfusion habs

theorem lineChunks_join :
    ∀ (fuel : Nat) (data : List Byte), data.length ≤ fuel →
      (lineChunks fuel data).flatten = data := by
  intro fuel
  induction fuel with
  | zero =>
    intro data h
    cases data with
    | nil => rfl
    | cons b bs => simp at h
  | succ fuel ih =>
    intro data h
    cases data with
    | nil => rfl
    | cons b bs =>
      show (List.take 16 (b :: bs) :: lineChunks fuel (List.drop 16 (b :: bs))).flatten
        = b :: bs
      rw [List.flatten_cons]
      rw [ih _ (by simp only [List.length_drop] at *; omega), List.take_append_drop]

theorem lineChunks_mem :
    ∀ (fuel : Nat) (data : List Byte), data.length ≤ fuel →
      ∀ c ∈ lineChunks fuel data, c ≠ [] ∧ c.length ≤ 16 := by
  intro fuel
  induction fuel with
  | zero =>
    intro data h c hc
    cases data with
    | nil => exact absurd hc (List.not_mem_nil _)
    | cons b bs => simp at h
  | succ fuel ih =>
    intro data h c hc
    cases data with
    | nil => exact absurd hc (List.not_mem_nil _)
    | cons b bs =>
      have hc2 : c ∈ List.take 16 (b :: bs) :: lineChunks fuel (List.drop 16 (b :: bs)) := hc
      rcases List.mem_cons.mp hc2 with h1 | h1
      · subst h1
        refine ⟨fun habs => List.noConfusion habs, ?_⟩
        exact List.length_take_le 16 _
      · exact ih _ (by simp only [List.length_drop] at *; omega) c h1

theorem lineList_cons_ne_nil (c : List Byte) (cs : List (List Byte)) (h : cs ≠ []) :
    lineList (c :: cs) = lineOf c true :: lineList cs := by
  cases cs with
  | nil => exact absurd rfl h
  | cons d ds => rfl

theorem splitLines_hexBodyAux :
    ∀ (fuel : Nat) (data : List Byte), data.length ≤ fuel →
      splitLines (hexBodyAux fuel data).data
        = lineList (lineChunks fuel data) ++ [[]] := by
  intro fuel
  induction fuel with
  | zero =>
    intro data h
    cases data with
    | nil => rfl
    | cons b bs => simp at h
  | succ fuel ih =>
    intro data h
    cases data with
    | nil => rfl
    | cons b bs =>
      have hunf : hexBodyAux (fuel + 1) (b :: bs)
          = "    " ++ joinSep (((b :: bs).take 16).map hexByte)
            ++ (if (b :: bs).drop 16 = [] then "" else ",") ++ "\n"
            ++ hexBodyAux fuel ((b :: bs).drop 16) := rfl
      by_cases hre : (b :: bs).drop 16 = []
      · have h2 : hexBodyAux fuel ([] : List Byte) = "" := by cases fuel <;> rfl
        have hform : (hexBodyAux (fuel + 1) (b :: bs)).data
            = lineOf ((b :: bs).take 16) false ++ '\n' :: [] := by
          rw [hunf, if_pos hre, hre, h2]
          simp [lineOf, string_data_append]
        rw [hform, splitLines_append_newline _ _ (newline_not_mem_lineOf _ _)]
        have hchunks : lineChunks (fuel + 1) (b :: bs) = [(b :: bs).take 16] := by
          show List.take 16 (b :: bs) :: lineChunks fuel (List.drop 16 (b :: bs)) = _
          rw [hre, lineChunks_nil]
        rw [hchunks]
        rfl
      · have hform : (hexBodyAux (fuel + 1) (b :: bs)).data
            = lineOf ((b :: bs).take 16) true
              ++ '\n' :: (hexBodyAux fuel ((b :: bs).drop 16)).data := by
          rw [hunf, if_neg hre]
          simp [lineOf, string_data_append]
        rw [hform, splitLines_append_newline _ _ (newline_not_mem_lineOf _ _)]
        rw [ih _ (by simp only [List.length_drop] at *; omega)]
        have hlen : (List.drop 16 (b :: bs)).length ≤ fuel := by
          simp only [List.length_drop] at *
          omega
        have hchunks : lineChunks (fuel + 1) (b :: bs)
            = (b :: bs).take 16 :: lineChunks fuel ((b :: bs).drop 16) := rfl
        rw [hchunks, lineList_cons_ne_nil _ _ (lineChunks_ne_nil hre hlen)]
        rfl

theorem extractHex_lineOf (chunk : List Byte) (flag : Bool) :
    extractHex (lineOf chunk flag) = chunk.map Fin.val := by
  unfold lineOf
  rw [string_data_append, List.append_assoc,
    extractHex_append_noZero (show ('0' : Char) ∉ "    ".data by decide),
    extractHex_joinSep]
  cases flag
  · simp [extractHex]
  · rw [show (if (true : Bool) then [','] else ([] : List Char)) = [','] from rfl,
      extractHex_skip ',' (by decide)]
    simp [extractHex]

theorem take4_lineOf (chunk : List Byte) (flag : Bool) :
    (lineOf chunk flag).take 4 = [' ', ' ', ' ', ' '] := rfl

theorem lineList_mem :
    ∀ (cs : List (List Byte)) (l : List Char), l ∈ lineList cs →
      ∃ chunk flag, chunk ∈ cs ∧ l = lineOf chunk flag := by
  intro cs
  induction cs with
  | nil => exact fun l hl => absurd hl (List.not_mem_nil _)
  | cons c cs ih =>
    intro l hl
    cases cs with
    | nil =>
      have hl2 : l ∈ [lineOf c false] := hl
      rcases List.mem_cons.mp hl2 with h | h
      · exact ⟨c, false, List.mem_cons_self _ _, h⟩
      · exact absurd h (List.not_mem_nil _)
    | cons d ds =>
      have hl2 : l ∈ lineOf c true :: lineList (d :: ds) := hl
      rcases List.mem_cons.mp hl2 with h | h
      · exact ⟨c, true, List.mem_cons_self _ _, h⟩
      · obtain ⟨chunk, flag, hmem, heq⟩ := ih l h
        exact ⟨chunk, flag, List.mem_cons_of_mem _ hmem, heq⟩

/-- **C4**: for nonempty `data` the hex body emitted by `bytes_to_cpp_array`
decomposes exactly as the formatting contract says.  There is a chunking
`cs` of `data` (each chunk nonempty, at most sixteen bytes) such that
splitting the body at newlines yields precisely one line per chunk (plus
the empty trailer after the final newline), where each line is four spaces
of indentation, the chunk's bytes rendered by `hexByte` (two-digit
lowercase hex literals) separated by `", "`, and a trailing comma on every
line except the last.  Explicitly re-analyzed from the text: every line
starts with the indentation, parses back to at most sixteen hex entries,
and exactly one `0xHH` token in the whole body — the final entry — is not
immediately followed by a comma. -/
theorem hex_body_line_format (data : List Byte) (h : data ≠ []) :
    ∃ cs : List (List Byte),
      cs ≠ [] ∧
      cs.flatten = data ∧
      (∀ c ∈ cs, c ≠ [] ∧ c.length ≤ 16) ∧
      splitLines (hexBody data).data = lineList cs ++ [[]] ∧
      (∀ l ∈ lineList cs,
        l.take 4 = [' ', ' ', ' ', ' '] ∧ (extractHex l).length ≤ 16) ∧
      tokensNoComma (hexBody data).data = 1 := by
  refine ⟨lineChunks data.length data, ?_, ?_, ?_, ?_, ?_, ?_⟩
  · exact lineChunks_ne_nil h le_rfl
  · exact lineChunks_join data.length data le_rfl
  · exact lineChunks_mem data.length data le_rfl
  · exact splitLines_hexBodyAux data.length data le_rfl
  · intro l hl
    obtain ⟨chunk, flag, hmem, heq⟩ := lineList_mem _ l hl
    subst heq
    refine ⟨take4_lineOf chunk flag, ?_⟩
    rw [extractHex_lineOf, List.length_map]
    exact (lineChunks_mem data.length data le_rfl chunk hmem).2
  · exact tokensNoComma_hexBodyAux data.length data h le_rfl

/-- Concrete 20-byte sample used by the C4 witness (spans two lines). -/
def sampleBytes : List Byte :=
  [0, 1, 2, 3, 4, 5, 6, 7, 8, 9, 10, 11, 12, 13, 14, 15, 16, 17, 18, 19]

/-- Witness for C4 at the 20-byte sample. -/
theorem hex_body_line_format_witness :
    sampleBytes ≠ [] ∧
    (∃ cs : List (List Byte),
      cs ≠ [] ∧
      cs.flatten = sampleBytes ∧
      (∀ c ∈ cs, c ≠ [] ∧ c.length ≤ 16) ∧
      splitLines (hexBody sampleBytes).data = lineList cs ++ [[]] ∧
      (∀ l ∈ lineList cs,
        l.take 4 = [' ', ' ', ' ', ' '] ∧ (extractHex l).length ≤ 16) ∧
      tokensNoComma (hexBody sampleBytes).data = 1) :=
  ⟨by decide, hex_body_line_format sampleBytes (by decide)⟩
